import Mathlib

/-!
Shallow embedding of `src/main.go` (yeka/fileshare), a minimal HTTP file
server.  Go strings are modelled as `List Char`; the filesystem is a flat
association list from absolute paths to entries.  Each Go function used by
the claims is translated into a Lean function of the same name where
possible: `validatePath`, `handleList`, `handleUpload`, `upload`, together
with the library helpers they call (`strings.Split`, `strings.Join`,
`filepath.Clean`, `filepath.Join`, `filepath.Ext`).
-/

/-- Go `strings.Split(s, sep)` for a single-character separator. -/
def stringsSplit (c : Char) : List Char → List (List Char)
  | [] => [[]]
  | a :: rest =>
    match stringsSplit c rest with
    | [] => [[a]]
    | s :: ss => if a = c then [] :: s :: ss else (a :: s) :: ss

/-- Go `strings.Join(ss, sep)` for a single-character separator. -/
def stringsJoin (c : Char) : List (List Char) → List Char
  | [] => []
  | [s] => s
  | s :: t :: rest => s ++ c :: stringsJoin c (t :: rest)

/-- One pass of the segment stack underlying Go `filepath.Clean`: empty and
`.` segments are dropped, `..` pops the last kept segment (or is dropped at
the root of a rooted path, or is kept at the front of a relative path), and
every other segment is pushed.  The accumulator holds kept segments in
reverse order. -/
def cleanLoop (rooted : Bool) : List (List Char) → List (List Char) → List (List Char)
  | acc, [] => acc.reverse
  | acc, s :: rest =>
    if s = [] ∨ s = ['.'] then cleanLoop rooted acc rest
    else if s = ['.', '.'] then
      match acc with
      | [] => if rooted then cleanLoop rooted [] rest else cleanLoop rooted [['.', '.']] rest
      | t :: acc' =>
        if t = ['.', '.'] then cleanLoop rooted (s :: t :: acc') rest
        else cleanLoop rooted acc' rest
    else cleanLoop rooted (s :: acc) rest

/-- Go `filepath.Clean` (Unix rules): shortest lexical equivalent of the
path — collapse repeated separators, drop `.` segments, resolve `..`
against preceding segments, drop `..` at the root; empty input becomes
`.`. -/
def filepathClean (p : List Char) : List Char :=
  if p = [] then ['.']
  else
    let rooted : Bool := p.head? = some '/'
    match cleanLoop rooted [] (stringsSplit '/' p) with
    | [] => if rooted then ['/'] else ['.']
    | s :: ss => (if rooted then ['/'] else []) ++ stringsJoin '/' (s :: ss)

/-- Go `filepath.Join(a, b)`: concatenate the non-empty components with a
separator and clean the result. -/
def filepathJoin (a b : List Char) : List Char :=
  if a ≠ [] then filepathClean (a ++ '/' :: b)
  else if b ≠ [] then filepathClean b
  else []

/-- Go `filepath.Ext`: the suffix of the name starting at the last `.` in
the final path element, or empty if there is none.  The scan walks the
reversed name and stops at a path separator. -/
def extAux : List Char → List Char → List Char
  | [], _ => []
  | c :: rest, acc =>
    if c = '/' then []
    else if c = '.' then c :: acc
    else extAux rest (c :: acc)

/-- Go `filepath.Ext(name)`. -/
def filepathExt (p : List Char) : List Char := extAux p.reverse []

/-- A filesystem entry: a directory or a regular file with its content
(bytes modelled as characters). -/
inductive Entry
  | dir
  | file (content : List Char)
deriving DecidableEq

/-- The filesystem: a flat association list from absolute paths to
entries.  `os.Stat` is lookup. -/
abbrev FSC := List (List Char × Entry)

/-- Go `os.Stat`: the entry stored at path `p`, if any. -/
def fsGet (fs : FSC) (p : List Char) : Option Entry :=
  match fs with
  | [] => none
  | kv :: rest => if kv.1 = p then some kv.2 else fsGet rest p

/-- Go `os.Create` / writing a file: replace the entry at `p`, or append a
new one. -/
def fsSet (fs : FSC) (p : List Char) (e : Entry) : FSC :=
  match fs with
  | [] => [(p, e)]
  | kv :: rest => if kv.1 = p then (kv.1, e) :: rest else kv :: fsSet rest p e

/-- Go `os.Remove`: drop every entry at path `p`. -/
def fsRemove (fs : FSC) (p : List Char) : FSC :=
  fs.filter (fun kv => decide (kv.1 ≠ p))

/-- Whether an entry is a directory (`FileInfo.IsDir`). -/
def isDirEntry : Entry → Bool
  | .dir => true
  | .file _ => false

/-- Errors produced by `validatePath`: an invalid-path rejection carrying
the offending segment, or the unwrapped `os.Stat` failure. -/
inductive VErr
  | invalidPath (seg : List Char)
  | notFound
deriving DecidableEq

instance {ε α : Type} [DecidableEq ε] [DecidableEq α] : DecidableEq (Except ε α) := fun a b =>
  match a, b with
  | .ok x, .ok y =>
    if h : x = y then .isTrue (by rw [h]) else .isFalse (by intro hc; cases hc; exact h rfl)
  | .error x, .error y =>
    if h : x = y then .isTrue (by rw [h]) else .isFalse (by intro hc; cases hc; exact h rfl)
  | .ok _, .error _ => .isFalse (by intro hc; cases hc)
  | .error _, .ok _ => .isFalse (by intro hc; cases hc)

/-- Go `validatePath(base, p)` from `src/main.go`: clean `p`; unless the
cleaned path is `.` or empty, reject it if any `/`-separated segment starts
with `.`; join onto `base`; stat the result; append a trailing separator
when the target is a directory. -/
def validatePath (fs : FSC) (base p0 : List Char) : Except VErr (List Char) :=
  let p := filepathClean p0
  let bad : Option (List Char) :=
    if p ≠ ['.'] ∧ p ≠ [] then
      (stringsSplit '/' p).find? (fun s => decide (s.head? = some '.'))
    else none
  match bad with
  | some s => .error (.invalidPath s)
  | none =>
    let q := filepathJoin base p
    match fsGet fs q with
    | none => .error .notFound
    | some e => .ok (if isDirEntry e then q ++ ['/'] else q)

/-- The process-wide configuration (`Config` in `src/main.go`). -/
structure Config where
  DisableDirectoryListing : Bool
  DontRemoveOnError : Bool
  BasePath : List Char
deriving DecidableEq

/-- An HTTP response: status code and body.  A Go handler that returns
without writing yields status 200 with an empty body. -/
structure Resp where
  status : Nat
  body : List Char
deriving DecidableEq

/-- The client-visible text of a `validatePath` error (`err.Error()`). -/
def errText : VErr → List Char
  | .invalidPath s => ("invalid path: ").data ++ s
  | .notFound => ("file does not exist").data

/-- `os.ReadDir` on the flat filesystem: the name of `k` as a direct child
of directory path `dirp` (which carries its trailing separator), if it is
one. -/
def childName (dirp k : List Char) : Option (List Char) :=
  if dirp.isPrefixOf k then
    let n := k.drop dirp.length
    if n ≠ [] ∧ '/' ∉ n then some n else none
  else none

/-- `os.ReadDir` on the flat filesystem: each direct child of `dirp`
paired with its directory flag, in filesystem order. -/
def readDirM (fs : FSC) (dirp : List Char) : List (List Char × Bool) :=
  fs.filterMap (fun kv =>
    match childName dirp kv.1 with
    | some n => some (n, isDirEntry kv.2)
    | none => none)

/-- The listing loop and response body of `handleList`: skip names
beginning with `.`, append `/` to directory names, and emit
`"[" + strings.Join(paths, ",") + "]"`. -/
def listBody (entries : List (List Char × Bool)) : List Char :=
  let paths := entries.filterMap (fun nd =>
    if nd.1.head? = some '.' then none
    else some (if nd.2 then nd.1 ++ ['/'] else nd.1))
  '[' :: stringsJoin ',' paths ++ [']']

/-- Go `handleList`: short-circuit to `200 []` when listing is disabled;
otherwise validate the `path` query value, stream the file back when the
validated path has no trailing separator, and return the bracketed listing
when it does. -/
def handleList (cfg : Config) (fs : FSC) (rawPath : List Char) : Resp :=
  if cfg.DisableDirectoryListing then ⟨200, ['[', ']']⟩
  else
    match validatePath fs cfg.BasePath rawPath with
    | .error e => ⟨400, errText e⟩
    | .ok p =>
      if p.getLast? ≠ some '/' then
        ⟨200, (match fsGet fs p with
               | some (.file c) => c
               | _ => [])⟩
      else ⟨200, listBody (readDirM fs p)⟩

/-- The body of a multipart part together with the outcome of
`io.Copy`: the bytes successfully written before completion, and the copy
error text if the stream failed after them. -/
structure ByteStream where
  bytes : List Char
  copyErr : Option (List Char)
deriving DecidableEq

/-- A multipart form part: its form field name, reported file name, and
body stream. -/
structure FormPart where
  formName : List Char
  fileName : List Char
  content : ByteStream
deriving DecidableEq

/-- The existence-check loop of `upload`: stat the candidate; stop at the
first candidate with no entry; otherwise increment `i` and rewrite the
candidate as `file[:len(file)-len(ext)] + " (" + itoa(i) + ")" + ext`,
mutating the current candidate.  `fuel` bounds the iteration count so the
function is total; `none` means the fuel ran out. -/
def collisionLoop (fs : FSC) (ext : List Char) : Nat → List Char → Nat → Option (List Char)
  | 0, _, _ => none
  | fuel + 1, file, i =>
    match fsGet fs file with
    | none => some file
    | some _ =>
      let i' := i + 1
      collisionLoop fs ext fuel
        (file.take (file.length - ext.length) ++ (" (" ++ toString i' ++ ")").data ++ ext) i'

/-- The destination path chosen by `upload`: start from
`filepath.Join(path, fileName)` and run the existence-check loop with the
extension of the original file name. -/
def uploadDest (fs : FSC) (path fileName : List Char) (fuel : Nat) : Option (List Char) :=
  collisionLoop fs (filepathExt fileName) fuel (filepathJoin path fileName) 0

/-- Go `upload(path, part)`: pick the destination, create the file, copy
the stream into it; on a copy error remove the partial file unless
`DontRemoveOnError` is set, and return the copy error.  The result pairs
the new filesystem with the returned error or the byte count. -/
def upload (cfg : Config) (fs : FSC) (path : List Char) (part : FormPart) (fuel : Nat) :
    Option (FSC × Except (List Char) Nat) :=
  match uploadDest fs path part.fileName fuel with
  | none => none
  | some file =>
    let fs1 := fsSet fs file (.file [])
    let fs2 := fsSet fs1 file (.file part.content.bytes)
    match part.content.copyErr with
    | none => some (fs2, .ok part.content.bytes.length)
    | some m =>
      some ((if cfg.DontRemoveOnError then fs2 else fsRemove fs2 file), .error m)

/-- The form field name `handleUpload` scans for. -/
def myFileName : List Char := ("myFile").data

/-- The part-scanning loop of `handleUpload`: handle the first part whose
form name is `myFile` (200 with empty body on success, 400 with
`upload failed: ` and the error otherwise) and stop; when the stream ends
without one, respond 400 `unknown payload`. -/
def scanParts (cfg : Config) (fs : FSC) (path : List Char) (fuel : Nat) :
    List FormPart → Option (FSC × Resp)
  | [] => some (fs, ⟨400, ("unknown payload").data⟩)
  | part :: rest =>
    if part.formName = myFileName then
      match upload cfg fs path part fuel with
      | none => none
      | some (fs2, .ok _) => some (fs2, ⟨200, []⟩)
      | some (fs2, .error m) => some (fs2, ⟨400, ("upload failed: ").data ++ m⟩)
    else scanParts cfg fs path fuel rest

/-- Go `handleUpload`: validate the `path` query value, require a
directory (trailing separator), then scan the multipart parts. -/
def handleUpload (cfg : Config) (fs : FSC) (rawPath : List Char) (parts : List FormPart)
    (fuel : Nat) : Option (FSC × Resp) :=
  match validatePath fs cfg.BasePath rawPath with
  | .error e => some (fs, ⟨400, errText e⟩)
  | .ok p =>
    if p.getLast? ≠ some '/' then some (fs, ⟨400, ("not a directory").data⟩)
    else scanParts cfg fs p fuel parts

/-- `∃ t, b = a ++ t`: path `a` is a leading part of path `b` (the model's
prefix relation on paths). -/
def headPart (a b : List Char) : Prop := ∃ t, b = a ++ t

/-- Boolean test deciding `headPart`. -/
def isHeadPart : List Char → List Char → Bool
  | [], _ => true
  | _ :: _, [] => false
  | x :: xs, y :: ys => x = y && isHeadPart xs ys

theorem isHeadPart_iff (a b : List Char) : isHeadPart a b = true ↔ headPart a b := by
  induction a generalizing b with
  | nil => simp [isHeadPart, headPart]
  | cons x xs ih =>
    cases b with
    | nil => simp [isHeadPart, headPart]
    | cons y ys =>
      simp only [isHeadPart, Bool.and_eq_true, decide_eq_true_eq, ih, headPart]
      constructor
      · rintro ⟨rfl, t, rfl⟩
        exact ⟨t, rfl⟩
      · rintro ⟨t, h⟩
        cases h
        exact ⟨rfl, t, rfl⟩

instance (a b : List Char) : Decidable (headPart a b) :=
  decidable_of_iff _ (isHeadPart_iff a b)

/-- Path `q` is confined to directory `base`: it is `base` itself, or a
path strictly below it (with the root directory handled separately). -/
def within (base q : List Char) : Prop :=
  q = base ∨ headPart (base ++ ['/']) q ∨ (base = ['/'] ∧ headPart ['/'] q)

instance (base q : List Char) : Decidable (within base q) := by
  unfold within; infer_instance

/-- A well-formed path segment: non-empty, not `.`, not `..`, and free of
separators.  A clean absolute directory path is `/` followed by such
segments joined with `/`. -/
def GoodSeg (s : List Char) : Prop :=
  s ≠ [] ∧ s ≠ ['.'] ∧ s ≠ ['.', '.'] ∧ '/' ∉ s

instance (s : List Char) : Decidable (GoodSeg s) := by
  unfold GoodSeg; infer_instance

theorem stringsSplit_ne_nil (c : Char) (l : List Char) : stringsSplit c l ≠ [] := by
  induction l with
  | nil => simp [stringsSplit]
  | cons a rest ih =>
    simp only [stringsSplit]
    cases h : stringsSplit c rest with
    | nil => simp
    | cons s ss => by_cases hac : a = c <;> simp [hac]

theorem stringsSplit_append (c : Char) (a b : List Char) :
    stringsSplit c (a ++ c :: b) = stringsSplit c a ++ stringsSplit c b := by
  induction a with
  | nil =>
    simp only [List.nil_append, stringsSplit]
    cases h : stringsSplit c b with
    | nil => exact absurd h (stringsSplit_ne_nil c b)
    | cons s ss => simp
  | cons x a' ih =>
    cases h : stringsSplit c a' with
    | nil => exact absurd h (stringsSplit_ne_nil c a')
    | cons s ss =>
      simp only [List.cons_append, stringsSplit, List.append_eq]
      rw [ih, h, List.cons_append]
      by_cases hx : x = c <;> simp [hx]

theorem stringsSplit_no_sep (c : Char) (l : List Char) (h : c ∉ l) :
    stringsSplit c l = [l] := by
  induction l with
  | nil => simp [stringsSplit]
  | cons a rest ih =>
    have ha : a ≠ c := fun hac => h (hac ▸ List.mem_cons_self a rest)
    have hr : c ∉ rest := fun hc => h (List.mem_cons_of_mem a hc)
    simp only [stringsSplit, ih hr]
    simp [ha]

theorem stringsSplit_join (c : Char) (ss : List (List Char)) (hne : ss ≠ [])
    (h : ∀ s ∈ ss, c ∉ s) : stringsSplit c (stringsJoin c ss) = ss := by
  induction ss with
  | nil => exact absurd rfl hne
  | cons s rest ih =>
    cases rest with
    | nil => exact stringsSplit_no_sep c s (h s (List.mem_cons_self s []))
    | cons t r =>
      have hs : c ∉ s := h s (List.mem_cons_self s (t :: r))
      have hrest : ∀ u ∈ t :: r, c ∉ u := fun u hu => h u (List.mem_cons_of_mem s hu)
      rw [show stringsJoin c (s :: t :: r) = s ++ c :: stringsJoin c (t :: r) from rfl,
        stringsSplit_append, stringsSplit_no_sep c s hs, ih (by simp) hrest]
      rfl

theorem stringsJoin_append (c : Char) (xs ys : List (List Char)) (hx : xs ≠ [])
    (hy : ys ≠ []) :
    stringsJoin c (xs ++ ys) = stringsJoin c xs ++ c :: stringsJoin c ys := by
  induction xs with
  | nil => exact absurd rfl hx
  | cons s rest ih =>
    cases rest with
    | nil =>
      cases ys with
      | nil => exact absurd rfl hy
      | cons t r => rfl
    | cons t r =>
      rw [show (s :: t :: r) ++ ys = s :: ((t :: r) ++ ys) from rfl]
      rw [show (t :: r) ++ ys = t :: (r ++ ys) from rfl]
      rw [show stringsJoin c (s :: t :: (r ++ ys)) = s ++ c :: stringsJoin c (t :: (r ++ ys))
        from rfl]
      rw [show t :: (r ++ ys) = (t :: r) ++ ys from rfl, ih (by simp)]
      rw [show stringsJoin c (s :: t :: r) = s ++ c :: stringsJoin c (t :: r) from rfl]
      simp

/-- The segment predicate kept by `cleanLoop`: segments that are dropped
are exactly the empty ones and `.`. -/
def keptSeg (s : List Char) : Bool := decide (s ≠ [] ∧ s ≠ ['.'])

theorem cleanLoop_append (rooted : Bool) (l : List (List Char)) :
    ∀ rest acc, (∀ s ∈ l, s ≠ ['.', '.']) →
      cleanLoop rooted acc (l ++ rest) =
        cleanLoop rooted ((l.filter keptSeg).reverse ++ acc) rest := by
  induction l with
  | nil => intro rest acc _; simp
  | cons s l' ih =>
    intro rest acc h
    have hs : s ≠ ['.', '.'] := h s (List.mem_cons_self s l')
    have hl' : ∀ t ∈ l', t ≠ ['.', '.'] := fun t ht => h t (List.mem_cons_of_mem s ht)
    by_cases hdrop : s = [] ∨ s = ['.']
    · have step : cleanLoop rooted acc ((s :: l') ++ rest) =
          cleanLoop rooted acc (l' ++ rest) := by
        simp only [List.cons_append, cleanLoop]
        rw [if_pos hdrop]
        rfl
      rw [step, ih rest acc hl']
      have : List.filter keptSeg (s :: l') = List.filter keptSeg l' := by
        rw [List.filter_cons]
        have : keptSeg s = false := by
          simp only [keptSeg, decide_eq_false_iff_not]
          tauto
        simp [this]
      rw [this]
    · have step : cleanLoop rooted acc ((s :: l') ++ rest) =
          cleanLoop rooted (s :: acc) (l' ++ rest) := by
        simp only [List.cons_append, cleanLoop]
        rw [if_neg hdrop, if_neg hs]
        rfl
      rw [step, ih rest (s :: acc) hl']
      have : List.filter keptSeg (s :: l') = s :: List.filter keptSeg l' := by
        rw [List.filter_cons]
        have : keptSeg s = true := by
          simp only [keptSeg, decide_eq_true_eq]
          tauto
        simp [this]
      rw [this]
      simp

theorem within_append_slash (base q : List Char) (h : within base q) :
    within base (q ++ ['/']) := by
  rcases h with h | ⟨t, rfl⟩ | ⟨hb, t, rfl⟩
  · subst h
    exact Or.inr (Or.inl ⟨[], by simp⟩)
  · exact Or.inr (Or.inl ⟨t ++ ['/'], by simp⟩)
  · exact Or.inr (Or.inr ⟨hb, t ++ ['/'], by simp⟩)

theorem cleanLoop_nil (rooted : Bool) (acc : List (List Char)) :
    cleanLoop rooted acc [] = acc.reverse := rfl

theorem cleanLoop_all (rooted : Bool) (l : List (List Char))
    (h : ∀ s ∈ l, s ≠ ['.', '.']) :
    cleanLoop rooted [] l = l.filter keptSeg := by
  have e := cleanLoop_append rooted l [] [] h
  rw [List.append_nil] at e
  rw [e, cleanLoop_nil]
  simp

theorem filepathClean_rooted (x : List Char) :
    filepathClean ('/' :: x)
      = '/' :: stringsJoin '/' (cleanLoop true [] (stringsSplit '/' ('/' :: x))) := by
  have base : filepathClean ('/' :: x)
      = (match cleanLoop true [] (stringsSplit '/' ('/' :: x)) with
         | [] => ['/']
         | s :: ss => '/' :: stringsJoin '/' (s :: ss)) := rfl
  rw [base]
  cases h : cleanLoop true [] (stringsSplit '/' ('/' :: x)) with
  | nil => rfl
  | cons s ss => rfl

theorem filepathJoin_within (ss : List (List Char)) (hss : ∀ s ∈ ss, GoodSeg s)
    (p : List Char) (hp : ∀ s ∈ stringsSplit '/' p, s ≠ ['.', '.']) :
    within ('/' :: stringsJoin '/' ss) (filepathJoin ('/' :: stringsJoin '/' ss) p) := by
  have hne : ('/' :: stringsJoin '/' ss) ≠ [] := by simp
  have hjoin : filepathJoin ('/' :: stringsJoin '/' ss) p
      = filepathClean ('/' :: (stringsJoin '/' ss ++ '/' :: p)) := by
    rw [show filepathJoin ('/' :: stringsJoin '/' ss) p
        = if ('/' :: stringsJoin '/' ss) ≠ [] then
            filepathClean (('/' :: stringsJoin '/' ss) ++ '/' :: p)
          else if p ≠ [] then filepathClean p else [] from rfl]
    rw [if_pos hne, List.cons_append]
  have h1 : stringsSplit '/' ('/' :: stringsJoin '/' ss)
      = [] :: stringsSplit '/' (stringsJoin '/' ss) := by
    have e : ('/' :: stringsJoin '/' ss) = ([] : List Char) ++ '/' :: stringsJoin '/' ss := rfl
    rw [e, stringsSplit_append]
    rfl
  have h2 : stringsSplit '/' ('/' :: (stringsJoin '/' ss ++ '/' :: p))
      = ([] :: stringsSplit '/' (stringsJoin '/' ss)) ++ stringsSplit '/' p := by
    have e : ('/' :: (stringsJoin '/' ss ++ '/' :: p))
        = ('/' :: stringsJoin '/' ss) ++ '/' :: p := by simp
    rw [e, stringsSplit_append, h1]
  rw [hjoin, filepathClean_rooted, h2]
  cases ss with
  | nil =>
    have hsp : stringsSplit '/' (stringsJoin '/' ([] : List (List Char))) = [[]] := rfl
    rw [hsp]
    have hcl : cleanLoop true [] (([] :: [[]]) ++ stringsSplit '/' p)
        = List.filter keptSeg (([] :: [[]]) ++ stringsSplit '/' p) := by
      apply cleanLoop_all
      intro s hs
      rcases List.mem_append.mp hs with h | h
      · simp at h
        rcases h with rfl | rfl <;> simp
      · exact hp s h
    rw [hcl, List.filter_append]
    have hf : List.filter keptSeg ([] :: [[]]) = [] := rfl
    rw [hf, List.nil_append]
    cases hq : List.filter keptSeg (stringsSplit '/' p) with
    | nil => exact Or.inl rfl
    | cons q qt =>
      exact Or.inr (Or.inr ⟨rfl, ⟨stringsJoin '/' (q :: qt), rfl⟩⟩)
  | cons s₀ ss₂ =>
    have hB : stringsSplit '/' (stringsJoin '/' (s₀ :: ss₂)) = s₀ :: ss₂ :=
      stringsSplit_join '/' _ (by simp) (fun s hs2 => (hss s hs2).2.2.2)
    rw [hB]
    have hcl : cleanLoop true [] (([] :: s₀ :: ss₂) ++ stringsSplit '/' p)
        = List.filter keptSeg (([] :: s₀ :: ss₂) ++ stringsSplit '/' p) := by
      apply cleanLoop_all
      intro s hs
      rcases List.mem_append.mp hs with h | h
      · rcases List.mem_cons.mp h with rfl | h
        · simp
        · exact (hss s h).2.2.1
      · exact hp s h
    rw [hcl, List.filter_append]
    have hf : List.filter keptSeg ([] :: s₀ :: ss₂) = s₀ :: ss₂ := by
      rw [List.filter_cons]
      have h0 : keptSeg ([] : List Char) = false := rfl
      rw [h0]
      simp only [Bool.false_eq_true, if_neg (by simp : ¬False)]
      apply List.filter_eq_self.mpr
      intro s hs2
      have hg := hss s hs2
      simp only [keptSeg, decide_eq_true_eq]
      exact ⟨hg.1, hg.2.1⟩
    rw [hf]
    cases hq : List.filter keptSeg (stringsSplit '/' p) with
    | nil =>
      rw [List.append_nil]
      exact Or.inl rfl
    | cons q qt =>
      rw [stringsJoin_append '/' (s₀ :: ss₂) (q :: qt) (by simp) (by simp)]
      refine Or.inr (Or.inl ⟨stringsJoin '/' (q :: qt), ?_⟩)
      simp

/-- C1: for every base directory (a clean absolute path, given by its
segments) and every raw path string, a successful `validatePath` returns a
path confined to the base: the base itself or a path below it. -/
theorem validatePath_confined (ss : List (List Char)) (fs : FSC) (raw q : List Char)
    (hss : ∀ s ∈ ss, GoodSeg s)
    (h : validatePath fs ('/' :: stringsJoin '/' ss) raw = .ok q) :
    within ('/' :: stringsJoin '/' ss) q := by
  have hv : validatePath fs ('/' :: stringsJoin '/' ss) raw
      = (match (if filepathClean raw ≠ ['.'] ∧ filepathClean raw ≠ [] then
            (stringsSplit '/' (filepathClean raw)).find?
              (fun s => decide (s.head? = some '.'))
          else none) with
         | some s => Except.error (VErr.invalidPath s)
         | none =>
           match fsGet fs (filepathJoin ('/' :: stringsJoin '/' ss) (filepathClean raw)) with
           | none => Except.error VErr.notFound
           | some e =>
             Except.ok (if isDirEntry e then
                 filepathJoin ('/' :: stringsJoin '/' ss) (filepathClean raw) ++ ['/']
               else filepathJoin ('/' :: stringsJoin '/' ss) (filepathClean raw))) := rfl
  rw [hv] at h
  cases hbad : (if filepathClean raw ≠ ['.'] ∧ filepathClean raw ≠ [] then
      (stringsSplit '/' (filepathClean raw)).find? (fun s => decide (s.head? = some '.'))
    else none) with
  | some s => rw [hbad] at h; exact absurd h (by simp)
  | none =>
    rw [hbad] at h
    have hp : ∀ s ∈ stringsSplit '/' (filepathClean raw), s ≠ ['.', '.'] := by
      by_cases hcond : filepathClean raw ≠ ['.'] ∧ filepathClean raw ≠ []
      · rw [if_pos hcond] at hbad
        intro s hs heq
        have hnone := List.find?_eq_none.mp hbad s hs
        subst heq
        simp at hnone
      · rcases not_and_or.mp hcond with hc | hc
        · have : filepathClean raw = ['.'] := not_not.mp hc
          rw [this]
          intro s hs
          have : s = ['.'] := by
            have e : stringsSplit '/' (['.'] : List Char) = [['.']] := rfl
            rw [e] at hs
            simpa using hs
          rw [this]
          simp
        · have : filepathClean raw = [] := not_not.mp hc
          rw [this]
          intro s hs
          have : s = [] := by
            have e : stringsSplit '/' ([] : List Char) = [[]] := rfl
            rw [e] at hs
            simpa using hs
          rw [this]
          simp
    have hwit := filepathJoin_within ss hss (filepathClean raw) hp
    cases hfs : fsGet fs (filepathJoin ('/' :: stringsJoin '/' ss) (filepathClean raw)) with
    | none => rw [hfs] at h; exact absurd h (by simp)
    | some e =>
      rw [hfs] at h
      have hq : (if isDirEntry e then
          filepathJoin ('/' :: stringsJoin '/' ss) (filepathClean raw) ++ ['/']
        else filepathJoin ('/' :: stringsJoin '/' ss) (filepathClean raw)) = q := by
        injection h
      cases hde : isDirEntry e with
      | true =>
        rw [hde, if_pos rfl] at hq
        rw [← hq]
        exact within_append_slash _ _ hwit
      | false =>
        rw [hde] at hq
        simp only [Bool.false_eq_true, if_false] at hq
        rw [← hq]
        exact hwit

/-- Witness for C1 at a concrete base, filesystem and raw path. -/
theorem validatePath_confined_witness :
    within ("/srv/files").data ("/srv/files/a.txt").data :=
  validatePath_confined [("srv").data, ("files").data]
    [(("/srv/files").data, .dir), (("/srv/files/a.txt").data, .file [])]
    ("a.txt").data ("/srv/files/a.txt").data
    (by intro s hs; simp at hs; rcases hs with rfl | rfl <;> exact (by decide))
    (by decide)

theorem fsGet_fsSet_self (fs : FSC) (p : List Char) (e : Entry) :
    fsGet (fsSet fs p e) p = some e := by
  induction fs with
  | nil => simp [fsSet, fsGet]
  | cons kv rest ih =>
    by_cases h : kv.1 = p
    · simp [fsSet, h, fsGet]
    · simp [fsSet, h, fsGet, ih]

theorem fsGet_fsSet_ne (fs : FSC) (p r : List Char) (e : Entry) (h : r ≠ p) :
    fsGet (fsSet fs p e) r = fsGet fs r := by
  induction fs with
  | nil =>
    have hpr : ¬(p = r) := fun hc => h hc.symm
    simp [fsSet, fsGet, hpr]
  | cons kv rest ih =>
    by_cases hk : kv.1 = p
    · have e1 : fsSet (kv :: rest) p e = (kv.1, e) :: rest := by
        simp [fsSet, hk]
      have hkr : ¬(kv.1 = r) := fun hc => h (hk.symm.trans hc).symm
      rw [e1]
      have g1 : fsGet ((kv.1, e) :: rest) r = fsGet rest r := by
        simp [fsGet, hkr]
      have g2 : fsGet (kv :: rest) r = fsGet rest r := by
        simp [fsGet, hkr]
      rw [g1, g2]
    · have e1 : fsSet (kv :: rest) p e = kv :: fsSet rest p e := by
        simp [fsSet, hk]
      rw [e1]
      by_cases hr : kv.1 = r
      · simp [fsGet, hr]
      · simp [fsGet, hr, ih]

theorem fsGet_fsRemove_self (fs : FSC) (p : List Char) :
    fsGet (fsRemove fs p) p = none := by
  induction fs with
  | nil => rfl
  | cons kv rest ih =>
    by_cases h : kv.1 = p
    · simp [fsRemove, List.filter_cons, h, fsGet]
      simpa [fsRemove] using ih
    · simp [fsRemove, List.filter_cons, h, fsGet]
      simpa [fsRemove] using ih

theorem collisionLoop_free (fs : FSC) (ext : List Char) (fuel : Nat) :
    ∀ file i q, collisionLoop fs ext fuel file i = some q → fsGet fs q = none := by
  induction fuel with
  | zero => intro file i q h; exact absurd h (by simp [collisionLoop])
  | succ n ih =>
    intro file i q h
    have e : collisionLoop fs ext (n + 1) file i
        = (match fsGet fs file with
           | none => some file
           | some _ => collisionLoop fs ext n
               (file.take (file.length - ext.length) ++
                 (" (" ++ toString (i + 1) ++ ")").data ++ ext) (i + 1)) := rfl
    rw [e] at h
    cases hf : fsGet fs file with
    | none =>
      rw [hf] at h
      have : file = q := by simpa using h
      rw [← this]
      exact hf
    | some e2 =>
      rw [hf] at h
      exact ih _ _ _ h

theorem uploadDest_free (fs : FSC) (path fileName : List Char) (fuel : Nat)
    (q : List Char) (h : uploadDest fs path fileName fuel = some q) :
    fsGet fs q = none :=
  collisionLoop_free fs (filepathExt fileName) fuel _ _ _ h

/-- C10: any existing entry at the candidate path — directory or regular
file — is a collision, and the path finally returned for `os.Create` is
one where the stat found nothing; in particular the create never targets a
path occupied by a directory. -/
theorem uploadDest_fresh (fs : FSC) (path fileName : List Char) (fuel : Nat)
    (q : List Char) (h : uploadDest fs path fileName fuel = some q) :
    fsGet fs q = none ∧
      (fsGet fs (filepathJoin path fileName) ≠ none → q ≠ filepathJoin path fileName) := by
  have hfree := uploadDest_free fs path fileName fuel q h
  exact ⟨hfree, fun hne hqe => hne (hqe ▸ hfree)⟩

/-- Witness for C10: a directory sitting at the first candidate path
advances the counter, and the returned path is unoccupied. -/
theorem uploadDest_fresh_witness :
    uploadDest [(("/d").data, .dir), (("/d/a").data, .dir)] ("/d/").data ("a").data 3
        = some (("/d/a (1)").data) ∧
      fsGet [(("/d").data, .dir), (("/d/a").data, .dir)] (("/d/a (1)").data) = none :=
  ⟨by decide,
    (uploadDest_fresh [(("/d").data, .dir), (("/d/a").data, .dir)] ("/d/").data
      ("a").data 3 (("/d/a (1)").data) (by decide)).1⟩

/-- C5: a successful upload creates the file at the chosen fresh
destination with exactly the bytes of the input stream, returns their
count, and leaves every other path — in particular every pre-existing
file — untouched. -/
theorem upload_success_frame (cfg : Config) (fs : FSC) (path : List Char)
    (part : FormPart) (fuel : Nat) (fs' : FSC) (n : Nat)
    (h : upload cfg fs path part fuel = some (fs', .ok n)) :
    ∃ q, uploadDest fs path part.fileName fuel = some q ∧
      fsGet fs q = none ∧
      fsGet fs' q = some (.file part.content.bytes) ∧
      n = part.content.bytes.length ∧
      ∀ r, r ≠ q → fsGet fs' r = fsGet fs r := by
  have e : upload cfg fs path part fuel
      = (match uploadDest fs path part.fileName fuel with
         | none => none
         | some file =>
           match part.content.copyErr with
           | none =>
             some (fsSet (fsSet fs file (.file [])) file (.file part.content.bytes),
               .ok part.content.bytes.length)
           | some m =>
             some ((if cfg.DontRemoveOnError then
                 fsSet (fsSet fs file (.file [])) file (.file part.content.bytes)
               else
                 fsRemove (fsSet (fsSet fs file (.file [])) file
                   (.file part.content.bytes)) file), .error m)) := rfl
  rw [e] at h
  cases hd : uploadDest fs path part.fileName fuel with
  | none => rw [hd] at h; exact absurd h (by simp)
  | some file =>
    rw [hd] at h
    cases hc : part.content.copyErr with
    | none =>
      rw [hc] at h
      have hinj := Option.some.inj h
      have hfs : fsSet (fsSet fs file (.file [])) file (.file part.content.bytes) = fs' :=
        congrArg Prod.fst hinj
      have hn : n = part.content.bytes.length := (Except.ok.inj (congrArg Prod.snd hinj)).symm
      refine ⟨file, rfl, uploadDest_free fs path part.fileName fuel file hd, ?_, hn, ?_⟩
      · rw [← hfs]
        exact fsGet_fsSet_self _ _ _
      · intro r hr
        rw [← hfs, fsGet_fsSet_ne _ _ _ _ hr, fsGet_fsSet_ne _ _ _ _ hr]
    | some m =>
      rw [hc] at h
      have := Option.some.inj h
      exact absurd (congrArg Prod.snd this) (by simp)

/-- Witness for C5 at a concrete upload. -/
theorem upload_success_frame_witness :
    ∃ q, uploadDest [(("/d").data, .dir), (("/d/a.txt").data, .file ("old").data)]
        ("/d/").data ("a.txt").data 3 = some q ∧
      fsGet [(("/d").data, .dir), (("/d/a.txt").data, .file ("old").data)] q = none ∧
      fsGet (fsSet (fsSet [(("/d").data, .dir), (("/d/a.txt").data, .file ("old").data)]
          (("/d/a (1).txt").data) (.file []))
          (("/d/a (1).txt").data) (.file ("new").data)) q = some (.file ("new").data) ∧
      (3 : Nat) = ("new").data.length ∧
      ∀ r, r ≠ q →
        fsGet (fsSet (fsSet [(("/d").data, .dir), (("/d/a.txt").data, .file ("old").data)]
            (("/d/a (1).txt").data) (.file []))
            (("/d/a (1).txt").data) (.file ("new").data)) r
          = fsGet [(("/d").data, .dir), (("/d/a.txt").data, .file ("old").data)] r :=
  upload_success_frame ⟨false, false, ("/d").data⟩
    [(("/d").data, .dir), (("/d/a.txt").data, .file ("old").data)]
    ("/d/").data ⟨myFileName, ("a.txt").data, ⟨("new").data, none⟩⟩ 3 _ 3 (by decide)

/-- C6: when the stream copy fails, the copy error is returned; with the
keep-partial-uploads option off the partially written file is removed,
and with it on the partial file remains holding the bytes received before
the error. -/
theorem upload_error_cleanup (cfg : Config) (fs : FSC) (path : List Char)
    (part : FormPart) (fuel : Nat) (fs' : FSC) (res : Except (List Char) Nat)
    (m : List Char) (hc : part.content.copyErr = some m)
    (h : upload cfg fs path part fuel = some (fs', res)) :
    res = .error m ∧
      ∃ q, uploadDest fs path part.fileName fuel = some q ∧
        (cfg.DontRemoveOnError = false → fsGet fs' q = none) ∧
        (cfg.DontRemoveOnError = true → fsGet fs' q = some (.file part.content.bytes)) := by
  have e : upload cfg fs path part fuel
      = (match uploadDest fs path part.fileName fuel with
         | none => none
         | some file =>
           match part.content.copyErr with
           | none =>
             some (fsSet (fsSet fs file (.file [])) file (.file part.content.bytes),
               .ok part.content.bytes.length)
           | some m =>
             some ((if cfg.DontRemoveOnError then
                 fsSet (fsSet fs file (.file [])) file (.file part.content.bytes)
               else
                 fsRemove (fsSet (fsSet fs file (.file [])) file
                   (.file part.content.bytes)) file), .error m)) := rfl
  rw [e] at h
  cases hd : uploadDest fs path part.fileName fuel with
  | none => rw [hd] at h; exact absurd h (by simp)
  | some file =>
    rw [hd, hc] at h
    have hinj := Option.some.inj h
    have hres : res = .error m := (congrArg Prod.snd hinj).symm
    have hfs : (if cfg.DontRemoveOnError then
        fsSet (fsSet fs file (.file [])) file (.file part.content.bytes)
      else
        fsRemove (fsSet (fsSet fs file (.file [])) file
          (.file part.content.bytes)) file) = fs' := congrArg Prod.fst hinj
    refine ⟨hres, file, rfl, ?_, ?_⟩
    · intro hoff
      rw [← hfs, hoff]
      simp only [Bool.false_eq_true, if_false]
      exact fsGet_fsRemove_self _ _
    · intro hon
      rw [← hfs, hon, if_pos rfl]
      exact fsGet_fsSet_self _ _ _

/-- Witness for C6 with the keep-partial option disabled. -/
theorem upload_error_cleanup_witness :
    (Except.error ("broken pipe").data : Except (List Char) Nat)
        = .error ("broken pipe").data ∧
      ∃ q, uploadDest [(("/d").data, .dir)] ("/d/").data ("a.txt").data 3 = some q ∧
        ((⟨false, false, ("/d").data⟩ : Config).DontRemoveOnError = false →
          fsGet (fsRemove (fsSet (fsSet [(("/d").data, .dir)] (("/d/a.txt").data)
              (.file [])) (("/d/a.txt").data) (.file ("par").data)) (("/d/a.txt").data))
            q = none) ∧
        ((⟨false, false, ("/d").data⟩ : Config).DontRemoveOnError = true →
          fsGet (fsRemove (fsSet (fsSet [(("/d").data, .dir)] (("/d/a.txt").data)
              (.file [])) (("/d/a.txt").data) (.file ("par").data)) (("/d/a.txt").data))
            q = some (.file ("par").data)) :=
  upload_error_cleanup ⟨false, false, ("/d").data⟩ [(("/d").data, .dir)] ("/d/").data
    ⟨myFileName, ("a.txt").data, ⟨("par").data, some ("broken pipe").data⟩⟩ 3 _ _
    ("broken pipe").data rfl (by decide)

/-- C8: with directory listing disabled, every list request yields 200
with body `[]`, for every filesystem and every raw path — the result does
not depend on the filesystem at all. -/
theorem handleList_disabled (cfg : Config) (fs : FSC) (rawPath : List Char)
    (h : cfg.DisableDirectoryListing = true) :
    handleList cfg fs rawPath = ⟨200, ['[', ']']⟩ := by
  unfold handleList
  rw [if_pos h]

/-- Witness for C8 at a concrete disabled configuration. -/
theorem handleList_disabled_witness :
    handleList ⟨true, false, ("/srv").data⟩ [] ("../etc").data = ⟨200, ['[', ']']⟩ :=
  handleList_disabled ⟨true, false, ("/srv").data⟩ [] ("../etc").data rfl

/-- C2 counterexample: `./x` and `a/../b` both contain a segment equal to
`.` or `..`, yet `validatePath` accepts them, because cleaning happens
before the segment check. -/
theorem validatePath_dot_segments_accepted :
    validatePath [(("/srv/x").data, .file [])] ("/srv").data ("./x").data
        = .ok (("/srv/x").data) ∧
      validatePath [(("/srv/b").data, .file [])] ("/srv").data ("a/../b").data
        = .ok (("/srv/b").data) :=
  ⟨by decide, by decide⟩

/-- C2 amended: for every base and every raw path whose *cleaned* form is
not `.` and still contains a segment starting with `.`, `validatePath`
fails with an invalid-path error naming such a segment. -/
theorem validatePath_rejects_dotted_clean (fs : FSC) (base raw : List Char)
    (h1 : filepathClean raw ≠ ['.'])
    (h2 : ∃ s ∈ stringsSplit '/' (filepathClean raw), s.head? = some '.') :
    ∃ s, validatePath fs base raw = .error (.invalidPath s) ∧ s.head? = some '.' := by
  have hne : filepathClean raw ≠ [] := by
    intro h0
    rcases h2 with ⟨s, hs, hh⟩
    rw [h0] at hs
    have e : stringsSplit '/' ([] : List Char) = [[]] := rfl
    rw [e] at hs
    have : s = [] := by simpa using hs
    rw [this] at hh
    simp at hh
  have hfind : ((stringsSplit '/' (filepathClean raw)).find?
      (fun s => decide (s.head? = some '.'))).isSome := by
    rcases h2 with ⟨s, hs, hh⟩
    apply List.find?_isSome.mpr
    exact ⟨s, hs, by simpa using hh⟩
  cases hf : (stringsSplit '/' (filepathClean raw)).find?
      (fun s => decide (s.head? = some '.')) with
  | none => rw [hf] at hfind; simp at hfind
  | some s =>
    have hp : s.head? = some '.' := by
      have := List.find?_some hf
      simpa using this
    refine ⟨s, ?_, hp⟩
    have hv : validatePath fs base raw
        = (match (if filepathClean raw ≠ ['.'] ∧ filepathClean raw ≠ [] then
              (stringsSplit '/' (filepathClean raw)).find?
                (fun s => decide (s.head? = some '.'))
            else none) with
           | some s => Except.error (VErr.invalidPath s)
           | none =>
             match fsGet fs (filepathJoin base (filepathClean raw)) with
             | none => Except.error VErr.notFound
             | some e =>
               Except.ok (if isDirEntry e then
                   filepathJoin base (filepathClean raw) ++ ['/']
                 else filepathJoin base (filepathClean raw))) := rfl
    rw [hv, if_pos ⟨h1, hne⟩, hf]

/-- Witness for C2's amended statement: `../x` cleans to itself and is
rejected with the `..` segment named. -/
theorem validatePath_rejects_dotted_clean_witness :
    ∃ s, validatePath [] ("/srv").data ("../x").data = .error (.invalidPath s) ∧
      s.head? = some '.' :=
  validatePath_rejects_dotted_clean [] ("/srv").data ("../x").data (by decide)
    ⟨("..").data, by decide, by decide⟩

/-- C3 counterexample: with `report.pdf` and `report (1).pdf` both
present, the chosen destination is `report (1) (2).pdf`, not
`report (2).pdf`: the candidate is mutated cumulatively. -/
theorem upload_report_counterexample :
    uploadDest [(("/d").data, .dir), (("/d/report.pdf").data, .file []),
        (("/d/report (1).pdf").data, .file [])]
        ("/d/").data ("report.pdf").data 10
        = some (("/d/report (1) (2).pdf").data) ∧
      (("/d/report (1) (2).pdf").data : List Char) ≠ ("/d/report (2).pdf").data :=
  ⟨by decide, by decide⟩

/-- C3 amended: the first collision yields `report (1).pdf`; with both
`report.pdf` and `report (1).pdf` present the next upload yields
`report (1) (2).pdf`, each iteration rewriting the current candidate. -/
theorem upload_report_naming :
    uploadDest [(("/d").data, .dir), (("/d/report.pdf").data, .file [])]
        ("/d/").data ("report.pdf").data 10 = some (("/d/report (1).pdf").data) ∧
      uploadDest [(("/d").data, .dir), (("/d/report.pdf").data, .file []),
          (("/d/report (1).pdf").data, .file [])]
        ("/d/").data ("report.pdf").data 10
        = some (("/d/report (1) (2).pdf").data) :=
  ⟨by decide, by decide⟩

/-- C4 counterexample: for a directory with entries `.git`, `a.txt` and
`sub`, the response body is `[a.txt,sub/]` — the names are not quoted, so
the body is not the JSON array `["a.txt","sub/"]` in either element
order. -/
theorem handleList_not_quoted_json :
    handleList ⟨false, false, ("/srv").data⟩
        [(("/srv/d").data, .dir), (("/srv/d/.git").data, .dir),
         (("/srv/d/a.txt").data, .file []), (("/srv/d/sub").data, .dir)]
        ("d").data = ⟨200, ("[a.txt,sub/]").data⟩ ∧
      (("[a.txt,sub/]").data : List Char) ≠ ("[\"a.txt\",\"sub/\"]").data ∧
      (("[a.txt,sub/]").data : List Char) ≠ ("[\"sub/\",\"a.txt\"]").data :=
  ⟨by decide, by decide, by decide⟩

/-- C4 amended: the listing excludes the hidden entry and marks the
subdirectory with a trailing separator, but emits the names bare, joined
by commas inside brackets. -/
theorem handleList_listing_body :
    handleList ⟨false, false, ("/srv").data⟩
        [(("/srv/d").data, .dir), (("/srv/d/.git").data, .dir),
         (("/srv/d/a.txt").data, .file []), (("/srv/d/sub").data, .dir)]
        ("d").data = ⟨200, '[' :: ("a.txt").data ++ ',' :: ("sub").data ++ ['/', ']']⟩ :=
  by decide

theorem stringsSplit_rooted (x : List Char) :
    stringsSplit '/' ('/' :: x) = [] :: stringsSplit '/' x := by
  have e : ('/' :: x) = ([] : List Char) ++ '/' :: x := rfl
  rw [e, stringsSplit_append]
  rfl

theorem stringsJoin_cons_ne_nil (c : Char) (s₀ : List Char) (ss₂ : List (List Char))
    (h : s₀ ≠ []) : stringsJoin c (s₀ :: ss₂) ≠ [] := by
  cases ss₂ with
  | nil => simpa [stringsJoin] using h
  | cons t r => simp [stringsJoin]

theorem collisionLoop_headPart (fs : FSC) (fuel : Nat) :
    ∀ file i q pre, headPart pre file → collisionLoop fs [] fuel file i = some q →
      headPart pre q := by
  induction fuel with
  | zero => intro file i q pre hpre h; exact absurd h (by simp [collisionLoop])
  | succ n ih =>
    intro file i q pre hpre h
    have e : collisionLoop fs [] (n + 1) file i
        = (match fsGet fs file with
           | none => some file
           | some _ => collisionLoop fs [] n
               (file.take (file.length - ([] : List Char).length) ++
                 (" (" ++ toString (i + 1) ++ ")").data ++ []) (i + 1)) := rfl
    rw [e] at h
    cases hf : fsGet fs file with
    | none =>
      rw [hf] at h
      have : file = q := by simpa using h
      rw [← this]
      exact hpre
    | some e2 =>
      rw [hf] at h
      apply ih _ _ _ pre _ h
      have ht : file.take (file.length - ([] : List Char).length) = file := by simp
      rw [ht]
      rcases hpre with ⟨t, rfl⟩
      exact ⟨t ++ (" (" ++ toString (i + 1) ++ ")").data ++ [], by simp⟩

/-- C9: a multipart part with an empty reported file name makes the first
upload candidate `filepath.Join(dir, "")`, which is the target directory
path itself; since the directory exists, the collision loop fires, and the
file is created at a path of the shape `<directory path> (1)…` — a sibling
of the directory, not inside it, and so outside the base when the target
is the base directory itself. -/
theorem upload_empty_filename_escape (ss : List (List Char)) (fs : FSC) (fuel : Nat)
    (q : List Char) (hne : ss ≠ []) (hss : ∀ s ∈ ss, GoodSeg s)
    (hdir : fsGet fs ('/' :: stringsJoin '/' ss) ≠ none)
    (h : uploadDest fs (('/' :: stringsJoin '/' ss) ++ ['/']) [] fuel = some q) :
    filepathJoin (('/' :: stringsJoin '/' ss) ++ ['/']) [] = '/' :: stringsJoin '/' ss ∧
      headPart (('/' :: stringsJoin '/' ss) ++ (" (1)").data) q ∧
      ¬ within ('/' :: stringsJoin '/' ss) q := by
  have hne2 : (('/' :: stringsJoin '/' ss) ++ ['/']) ≠ [] := by simp
  have hjoin : filepathJoin (('/' :: stringsJoin '/' ss) ++ ['/']) []
      = '/' :: stringsJoin '/' ss := by
    rw [show filepathJoin (('/' :: stringsJoin '/' ss) ++ ['/']) []
        = if (('/' :: stringsJoin '/' ss) ++ ['/']) ≠ [] then
            filepathClean ((('/' :: stringsJoin '/' ss) ++ ['/']) ++ '/' :: [])
          else if ([] : List Char) ≠ [] then filepathClean [] else [] from rfl]
    rw [if_pos hne2]
    have e : (('/' :: stringsJoin '/' ss) ++ ['/']) ++ '/' :: ([] : List Char)
        = '/' :: (stringsJoin '/' ss ++ '/' :: ['/']) := by simp
    rw [e, filepathClean_rooted, stringsSplit_rooted, stringsSplit_append,
      stringsSplit_join '/' ss hne (fun s hs => (hss s hs).2.2.2)]
    have e2 : stringsSplit '/' (['/'] : List Char) = [[], []] := rfl
    rw [e2]
    rw [cleanLoop_all true _ ?hcond]
    case hcond =>
      intro s hs
      rcases List.mem_cons.mp hs with rfl | hs2
      · simp
      · rcases List.mem_append.mp hs2 with h3 | h3
        · exact (hss s h3).2.2.1
        · have : s = [] := by
            rcases List.mem_cons.mp h3 with rfl | h4
            · rfl
            · simpa using h4
          rw [this]
          simp
    have hfilter : List.filter keptSeg ([] :: (ss ++ [[], []])) = ss := by
      rw [List.filter_cons]
      have h0 : keptSeg ([] : List Char) = false := rfl
      rw [h0]
      simp only [Bool.false_eq_true, if_neg (by simp : ¬False)]
      rw [List.filter_append]
      have hss' : List.filter keptSeg ss = ss :=
        List.filter_eq_self.mpr (fun s hs => by
          have hg := hss s hs
          simp only [keptSeg, decide_eq_true_eq]
          exact ⟨hg.1, hg.2.1⟩)
      have hz : List.filter keptSeg ([[], []] : List (List Char)) = [] := rfl
      rw [hss', hz, List.append_nil]
    rw [hfilter]
  have hext : filepathExt ([] : List Char) = [] := rfl
  have hu : collisionLoop fs [] fuel ('/' :: stringsJoin '/' ss) 0 = some q := by
    have e : uploadDest fs (('/' :: stringsJoin '/' ss) ++ ['/']) [] fuel
        = collisionLoop fs (filepathExt [])
            fuel (filepathJoin (('/' :: stringsJoin '/' ss) ++ ['/']) []) 0 := rfl
    rw [e, hext, hjoin] at h
    exact h
  have hhp : headPart (('/' :: stringsJoin '/' ss) ++ (" (1)").data) q := by
    cases fuel with
    | zero => exact absurd hu (by simp [collisionLoop])
    | succ n =>
      have e : collisionLoop fs [] (n + 1) ('/' :: stringsJoin '/' ss) 0
          = (match fsGet fs ('/' :: stringsJoin '/' ss) with
             | none => some ('/' :: stringsJoin '/' ss)
             | some _ => collisionLoop fs [] n
                 (('/' :: stringsJoin '/' ss).take
                     (('/' :: stringsJoin '/' ss).length - ([] : List Char).length) ++
                   (" (" ++ toString (0 + 1) ++ ")").data ++ []) 1) := rfl
      rw [e] at hu
      cases hf : fsGet fs ('/' :: stringsJoin '/' ss) with
      | none => exact absurd hf hdir
      | some e3 =>
        rw [hf] at hu
        have hcand : ('/' :: stringsJoin '/' ss).take
              (('/' :: stringsJoin '/' ss).length - ([] : List Char).length) ++
              (" (" ++ toString (0 + 1) ++ ")").data ++ ([] : List Char)
            = ('/' :: stringsJoin '/' ss) ++ (" (1)").data := by
          have e4 : (" (" ++ toString (0 + 1) ++ ")").data = (" (1)").data := rfl
          rw [e4]
          simp
        rw [hcand] at hu
        exact collisionLoop_headPart fs n _ 1 q _ ⟨[], by simp⟩ hu
  refine ⟨hjoin, hhp, ?_⟩
  intro hw
  rcases hw with hw | ⟨u, hu2⟩ | ⟨hroot, _⟩
  · rcases hhp with ⟨t, rfl⟩
    have hlen := congrArg List.length hw
    rw [List.length_append, List.length_append] at hlen
    have h4 : ((" (1)").data).length = 4 := rfl
    rw [h4] at hlen
    omega
  · rcases hhp with ⟨t, ht⟩
    rw [ht] at hu2
    have hc : (" (1)").data ++ t = '/' :: u := by
      have h2 : ('/' :: stringsJoin '/' ss) ++ ((" (1)").data ++ t)
          = ('/' :: stringsJoin '/' ss) ++ ('/' :: u) := by
        simpa [List.append_assoc] using hu2
      exact List.append_cancel_left h2
    have : (' ' : Char) = '/' := by
      have e5 : (" (1)").data ++ t = ' ' :: (("(1)").data ++ t) := rfl
      rw [e5] at hc
      exact (List.cons.injEq _ _ _ _ ▸ hc).1
    exact absurd this (by decide)
  · have hj : stringsJoin '/' ss = [] := by
      injection hroot
    cases ss with
    | nil => exact hne rfl
    | cons s₀ ss₂ =>
      exact stringsJoin_cons_ne_nil '/' s₀ ss₂ (hss s₀ (List.mem_cons_self s₀ ss₂)).1 hj

/-- Witness for C9: uploading with an empty file name into the base
directory `/srv` itself produces `/srv (1)`, outside the base. -/
theorem upload_empty_filename_escape_witness :
    filepathJoin (('/' :: stringsJoin '/' [("srv").data]) ++ ['/']) []
        = '/' :: stringsJoin '/' [("srv").data] ∧
      headPart (('/' :: stringsJoin '/' [("srv").data]) ++ (" (1)").data)
        (("/srv (1)").data) ∧
      ¬ within ('/' :: stringsJoin '/' [("srv").data]) (("/srv (1)").data) :=
  upload_empty_filename_escape [("srv").data] [(("/srv").data, .dir)] 2
    (("/srv (1)").data) (by decide) (by decide) (by decide) (by decide)

theorem uploadFailed_ne_unknown (m : List Char) :
    ("upload failed: ").data ++ m ≠ ("unknown payload").data := by
  intro h
  have e1 : (("upload failed: ").data ++ m)
      = 'u' :: 'p' :: (("load failed: ").data ++ m) := rfl
  have e2 : ("unknown payload").data = 'u' :: 'n' :: ("known payload").data := rfl
  rw [e1, e2] at h
  injection h with h1 h2
  injection h2 with h3 h4
  exact absurd h3 (by decide)

theorem scanParts_spec (cfg : Config) (vdir : List Char) (fuel : Nat) :
    ∀ (parts : List FormPart) (fs fs' : FSC) (resp : Resp),
      scanParts cfg fs vdir fuel parts = some (fs', resp) →
      (match parts.find? (fun pt => decide ( pt.formName = myFileName)) with
       | none => fs' = fs ∧ resp = ⟨400, ("unknown payload").data⟩
       | some pt => ∃ res, upload cfg fs vdir pt fuel = some (fs', res) ∧
           resp = (match res with
                   | .ok _ => ⟨200, ([] : List Char)⟩
                   | .error m => ⟨400, ("upload failed: ").data ++ m⟩)) ∧
      (resp = ⟨400, ("unknown payload").data⟩ ↔
        parts.find? (fun pt => decide ( pt.formName = myFileName)) = none) := by
  intro parts
  induction parts with
  | nil =>
    intro fs fs' resp h
    have e : scanParts cfg fs vdir fuel []
        = some (fs, ⟨400, ("unknown payload").data⟩) := rfl
    rw [e] at h
    have hinj := Option.some.inj h
    have hfs : fs = fs' := congrArg Prod.fst hinj
    have hresp : resp = ⟨400, ("unknown payload").data⟩ := (congrArg Prod.snd hinj).symm
    constructor
    · rw [List.find?_nil]
      exact ⟨hfs.symm, hresp⟩
    · rw [List.find?_nil]
      simp [hresp]
  | cons part rest ih =>
    intro fs fs' resp h
    by_cases hn : part.formName = myFileName
    · have e : scanParts cfg fs vdir fuel (part :: rest)
          = (match upload cfg fs vdir part fuel with
             | none => none
             | some (fs2, .ok _) => some (fs2, ⟨200, []⟩)
             | some (fs2, .error m) =>
               some (fs2, ⟨400, ("upload failed: ").data ++ m⟩)) := by
        simp only [scanParts]
        rw [if_pos hn]
      rw [e] at h
      have hfind : (part :: rest).find? (fun pt => decide ( pt.formName = myFileName))
          = some part :=
        List.find?_cons_of_pos _ (by simpa using hn)
      rw [hfind]
      cases hu : upload cfg fs vdir part fuel with
      | none => rw [hu] at h; exact absurd h (by simp)
      | some pr =>
        rcases pr with ⟨fs2, res⟩
        rw [hu] at h
        cases res with
        | ok k =>
          have hinj := Option.some.inj h
          have hfs2 : fs2 = fs' := congrArg Prod.fst hinj
          have hresp : resp = ⟨200, []⟩ := (congrArg Prod.snd hinj).symm
          refine ⟨⟨.ok k, by rw [← hfs2]; exact hu, by rw [hresp]⟩, ?_, ?_⟩
          · intro hr
            rw [hresp] at hr
            exact absurd hr (by decide)
          · intro hr
            exact absurd hr (by simp)
        | error m =>
          have hinj := Option.some.inj h
          have hfs2 : fs2 = fs' := congrArg Prod.fst hinj
          have hresp : resp = ⟨400, ("upload failed: ").data ++ m⟩ :=
            (congrArg Prod.snd hinj).symm
          refine ⟨⟨.error m, by rw [← hfs2]; exact hu, by rw [hresp]⟩, ?_, ?_⟩
          · intro hr
            rw [hresp] at hr
            have hb : ("upload failed: ").data ++ m = ("unknown payload").data :=
              congrArg Resp.body hr
            exact absurd hb (uploadFailed_ne_unknown m)
          · intro hr
            exact absurd hr (by simp)
    · have e : scanParts cfg fs vdir fuel (part :: rest)
          = scanParts cfg fs vdir fuel rest := by
        simp only [scanParts]
        rw [if_neg hn]
      rw [e] at h
      have hfind : (part :: rest).find? (fun pt => decide ( pt.formName = myFileName))
          = rest.find? (fun pt => decide ( pt.formName = myFileName)) :=
        List.find?_cons_of_neg _ (by simpa using hn)
      rw [hfind]
      exact ih fs fs' resp h

/-- C7: when the upload path validates to a directory, the handler acts on
the first part named `myFile` — 200 with empty body when the upload
succeeds, 400 `upload failed: …` when it fails — and it responds 400
`unknown payload`, leaving the filesystem unchanged, exactly when no part
of the stream is named `myFile`. -/
theorem handleUpload_myFile (cfg : Config) (fs : FSC) (rawPath vdir : List Char)
    (parts : List FormPart) (fuel : Nat) (fs' : FSC) (resp : Resp)
    (hval : validatePath fs cfg.BasePath rawPath = .ok vdir)
    (hdir : vdir.getLast? = some '/')
    (h : handleUpload cfg fs rawPath parts fuel = some (fs', resp)) :
    (match parts.find? (fun pt => decide ( pt.formName = myFileName)) with
     | none => fs' = fs ∧ resp = ⟨400, ("unknown payload").data⟩
     | some pt => ∃ res, upload cfg fs vdir pt fuel = some (fs', res) ∧
         resp = (match res with
                 | .ok _ => ⟨200, ([] : List Char)⟩
                 | .error m => ⟨400, ("upload failed: ").data ++ m⟩)) ∧
    (resp = ⟨400, ("unknown payload").data⟩ ↔
      parts.find? (fun pt => decide ( pt.formName = myFileName)) = none) := by
  simp only [handleUpload, hval] at h
  rw [if_neg (fun hc => hc hdir)] at h
  exact scanParts_spec cfg vdir fuel parts fs fs' resp h

/-- Witness for C7 at a concrete request whose second part is named
`myFile`: the response is 200 with an empty body, not `unknown payload`. -/
theorem handleUpload_myFile_witness :
    ((⟨200, ([] : List Char)⟩ : Resp) = ⟨400, ("unknown payload").data⟩ ↔
      ([⟨("other").data, ("x").data, ⟨("b").data, none⟩⟩,
        ⟨myFileName, ("a.txt").data, ⟨("hi").data, none⟩⟩] : List FormPart).find?
        (fun pt => decide ( pt.formName = myFileName)) = none) :=
  (handleUpload_myFile ⟨false, false, ("/srv").data⟩ [(("/srv").data, .dir)]
    [] ("/srv/").data
    [⟨("other").data, ("x").data, ⟨("b").data, none⟩⟩,
     ⟨myFileName, ("a.txt").data, ⟨("hi").data, none⟩⟩] 3
    [(("/srv").data, .dir), (("/srv/a.txt").data, .file ("hi").data)] ⟨200, []⟩
    (by decide) (by decide) (by decide)).2
